import Mathlib

/-!
Shallow embedding of the scratch-relocation planner of `Xhpc/relocate.py`.

Paths and shell commands are Lean `String`s.  Python `set`s of paths are
modelled as `List String` considered up to membership (the list gives one
iteration order); `sorted(...)` is modelled by an insertion sort over the
lexicographic byte order `leB`, which agrees with Python's string order on
the code points.  Python's substring operator `a in b` is `subL a.data b.data`
and `os.path.dirname` is ported faithfully from `posixpath.dirname`.
-/

namespace Xhpc

/-- Python string test `b.startswith(a)`: `a` is a leading block of `b`. -/
def isPre : List Char → List Char → Bool
  | [], _ => true
  | _ :: _, [] => false
  | a :: as, b :: bs => a == b && isPre as bs

/-- Python's `a in b` on strings: `a` occurs contiguously inside `b`. -/
def subL : List Char → List Char → Bool
  | a, [] => isPre a []
  | a, b :: bs => isPre a (b :: bs) || subL a bs

/-- `subS a b` holds when the string `a` occurs as a substring of `b`. -/
def subS (a b : String) : Prop := subL a.data b.data = true

instance (a b : String) : Decidable (subS a b) := by unfold subS; infer_instance

theorem isPre_iff (a : List Char) : ∀ b, isPre a b = true ↔ ∃ t, b = a ++ t := by
  induction a with
  | nil => intro b; simp [isPre]
  | cons x xs ih =>
    intro b
    cases b with
    | nil => simp [isPre]
    | cons y ys =>
      simp only [isPre, Bool.and_eq_true, beq_iff_eq, ih, List.cons_append]
      constructor
      · rintro ⟨rfl, t, rfl⟩; exact ⟨t, rfl⟩
      · rintro ⟨t, heq⟩
        injection heq with h1 h2
        exact ⟨h1.symm, t, h2⟩

theorem subL_iff (a : List Char) : ∀ b, subL a b = true ↔ ∃ s t, b = s ++ a ++ t := by
  intro b
  induction b with
  | nil =>
    simp only [subL, isPre_iff]
    constructor
    · rintro ⟨t, heq⟩
      exact ⟨[], t, by simpa using heq⟩
    · rintro ⟨s, t, heq⟩
      obtain ⟨h12, h3⟩ := List.append_eq_nil.mp heq.symm
      obtain ⟨h1, h2⟩ := List.append_eq_nil.mp h12
      exact ⟨[], by simp [h2]⟩
  | cons c cs ih =>
    simp only [subL, Bool.or_eq_true, isPre_iff, ih]
    constructor
    · rintro (⟨t, heq⟩ | ⟨s, t, heq⟩)
      · exact ⟨[], t, by simpa using heq⟩
      · exact ⟨c :: s, t, by simp [heq]⟩
    · rintro ⟨s, t, heq⟩
      cases s with
      | nil => exact Or.inl ⟨t, by simpa using heq⟩
      | cons c' s' =>
        injection heq with h1 h2
        exact Or.inr ⟨s', t, h2⟩

theorem subS_refl (a : String) : subS a a :=
  (subL_iff _ _).mpr ⟨[], [], by simp⟩

theorem subS_trans {a b c : String} (h1 : subS a b) (h2 : subS b c) : subS a c := by
  obtain ⟨s, t, hb⟩ := (subL_iff _ _).mp h1
  obtain ⟨u, v, hc⟩ := (subL_iff _ _).mp h2
  exact (subL_iff _ _).mpr ⟨u ++ s, t ++ v, by simp [hc, hb, List.append_assoc]⟩

theorem isPre_subL {a b : List Char} (h : isPre a b = true) : subL a b = true := by
  obtain ⟨t, rfl⟩ := (isPre_iff _ _).mp h
  exact (subL_iff _ _).mpr ⟨[], t, by simp⟩

/-- Lexicographic (code-point) order on character lists: Python's string `<=`. -/
def leB : List Char → List Char → Bool
  | [], _ => true
  | _ :: _, [] => false
  | a :: as, b :: bs => if a < b then true else if b < a then false else leB as bs

theorem leB_refl (a : List Char) : leB a a = true := by
  induction a with
  | nil => rfl
  | cons x xs ih => simp [leB, lt_irrefl, ih]

theorem leB_trans {a b c : List Char} (h1 : leB a b = true) (h2 : leB b c = true) :
    leB a c = true := by
  induction a generalizing b c with
  | nil => rfl
  | cons x xs ih =>
    cases b with
    | nil => simp [leB] at h1
    | cons y ys =>
      cases c with
      | nil => simp [leB] at h2
      | cons z zs =>
        simp only [leB] at h1 h2 ⊢
        rcases lt_trichotomy x y with hxy | hxy | hxy
        · rcases lt_trichotomy y z with hyz | hyz | hyz
          · simp [lt_trans hxy hyz]
          · subst hyz; simp [hxy]
          · simp [hyz, asymm hyz] at h2
        · subst hxy
          simp only [lt_irrefl, if_false] at h1
          rcases lt_trichotomy x z with hxz | hxz | hxz
          · simp [hxz]
          · subst hxz
            simp only [lt_irrefl, if_false] at h2 ⊢
            exact ih h1 h2
          · simp [hxz, asymm hxz] at h2
        · simp [hxy, asymm hxy] at h1

theorem leB_antisymm {a b : List Char} (h1 : leB a b = true) (h2 : leB b a = true) :
    a = b := by
  induction a generalizing b with
  | nil =>
    cases b with
    | nil => rfl
    | cons y ys => simp [leB] at h2
  | cons x xs ih =>
    cases b with
    | nil => simp [leB] at h1
    | cons y ys =>
      simp only [leB] at h1 h2
      rcases lt_trichotomy x y with hxy | hxy | hxy
      · simp [hxy, asymm hxy] at h2
      · subst hxy
        simp only [lt_irrefl, if_false] at h1 h2
        rw [ih h1 h2]
      · simp [hxy, asymm hxy] at h1

theorem leB_total (a b : List Char) : leB a b = true ∨ leB b a = true := by
  induction a generalizing b with
  | nil => left; rfl
  | cons x xs ih =>
    cases b with
    | nil => right; rfl
    | cons y ys =>
      simp only [leB]
      rcases lt_trichotomy x y with hxy | hxy | hxy
      · left; simp [hxy]
      · subst hxy
        simp only [lt_irrefl, if_false]
        exact ih ys
      · right; simp [hxy, asymm hxy]

/-- Non-strict string order used by `sorted`. -/
def leR (a b : String) : Prop := leB a.data b.data = true

/-- Strict string order: `a` comes strictly before `b` in `sorted` output. -/
def ltS (a b : String) : Prop := leB a.data b.data = true ∧ a ≠ b

instance (a b : String) : Decidable (leR a b) := by unfold leR; infer_instance

instance (a b : String) : Decidable (ltS a b) := by unfold ltS; infer_instance

theorem string_ext {a b : String} (h : a.data = b.data) : a = b :=
  congrArg String.mk h

theorem ltS_trans {a b c : String} (h1 : ltS a b) (h2 : ltS b c) : ltS a c := by
  refine ⟨leB_trans h1.1 h2.1, fun hEq => ?_⟩
  subst hEq
  exact h2.2 (string_ext (leB_antisymm h2.1 h1.1))

/-- A proper leading block is strictly earlier in the string order. -/
theorem ltS_of_isPre {a b : String} (hne : a ≠ b) (h : isPre a.data b.data = true) :
    ltS a b := by
  refine ⟨?_, hne⟩
  have : ∀ (x y : List Char), isPre x y = true → leB x y = true := by
    intro x
    induction x with
    | nil => intro y _; rfl
    | cons c cs ih =>
      intro y hy
      cases y with
      | nil => simp [isPre] at hy
      | cons d ds =>
        simp only [isPre, Bool.and_eq_true, beq_iff_eq] at hy
        obtain ⟨rfl, hy2⟩ := hy
        simp [leB, lt_irrefl, ih _ hy2]
  exact this _ _ h

/-- One step of insertion sort with respect to `leB`. -/
def insertS (x : String) : List String → List String
  | [] => [x]
  | y :: ys => if leB x.data y.data then x :: y :: ys else y :: insertS x ys

/-- Insertion sort over strings: the model of Python's `sorted`. -/
def sortS : List String → List String
  | [] => []
  | x :: xs => insertS x (sortS xs)

theorem mem_insertS {a x : String} {l : List String} :
    a ∈ insertS x l ↔ a = x ∨ a ∈ l := by
  induction l with
  | nil => simp [insertS]
  | cons y ys ih =>
    by_cases h : leB x.data y.data = true
    · simp [insertS, h]
    · simp only [insertS, h, if_false, Bool.false_eq_true, List.mem_cons, ih]
      tauto

theorem mem_sortS {a : String} {l : List String} : a ∈ sortS l ↔ a ∈ l := by
  induction l with
  | nil => simp [sortS]
  | cons x xs ih => simp [sortS, mem_insertS, ih]

theorem sorted_insertS {x : String} {l : List String} (h : l.Sorted leR) :
    (insertS x l).Sorted leR := by
  induction l with
  | nil => simp [insertS]
  | cons y ys ih =>
    rw [List.sorted_cons] at h
    by_cases hxy : leB x.data y.data = true
    · rw [insertS, if_pos hxy, List.sorted_cons]
      refine ⟨?_, List.sorted_cons.mpr h⟩
      intro b hb
      rcases List.mem_cons.mp hb with rfl | hb'
      · exact hxy
      · exact leB_trans hxy (h.1 b hb')
    · rw [insertS, if_neg hxy, List.sorted_cons]
      refine ⟨?_, ih h.2⟩
      intro b hb
      rcases mem_insertS.mp hb with heq | hb'
      · subst heq
        rcases leB_total b.data y.data with hx | hy
        · exact absurd hx hxy
        · exact hy
      · exact h.1 b hb'

theorem sorted_sortS (l : List String) : (sortS l).Sorted leR := by
  induction l with
  | nil => simp [sortS]
  | cons x xs ih => exact sorted_insertS ih

/-- `itertools.combinations(l, 2)`: ordered pairs of positions `i < j`. -/
def combinations2 : List α → List (α × α)
  | [] => []
  | x :: xs => xs.map (fun y => (x, y)) ++ combinations2 xs

theorem of_mem_combinations2 {l : List String} (hs : l.Sorted leR) {a b : String}
    (h : (a, b) ∈ combinations2 l) : a ∈ l ∧ b ∈ l ∧ leR a b := by
  induction l with
  | nil => simp [combinations2] at h
  | cons x xs ih =>
    rw [List.sorted_cons] at hs
    rcases List.mem_append.mp h with h1 | h2
    · obtain ⟨y, hy, heq⟩ := List.mem_map.mp h1
      injection heq with e1 e2
      subst e1; subst e2
      exact ⟨List.mem_cons_self _ _, List.mem_cons_of_mem _ hy, hs.1 _ hy⟩
    · obtain ⟨ha, hb, hab⟩ := ih hs.2 h2
      exact ⟨List.mem_cons_of_mem _ ha, List.mem_cons_of_mem _ hb, hab⟩

theorem mem_combinations2_of_lt {l : List String} (hs : l.Sorted leR) {a b : String}
    (ha : a ∈ l) (hb : b ∈ l) (hne : a ≠ b) (hle : leR a b) :
    (a, b) ∈ combinations2 l := by
  induction l with
  | nil => simp at ha
  | cons x xs ih =>
    rw [List.sorted_cons] at hs
    rw [combinations2, List.mem_append]
    rcases List.mem_cons.mp ha with rfl | ha'
    · rcases List.mem_cons.mp hb with rfl | hb'
      · exact absurd rfl hne
      · exact Or.inl (List.mem_map.mpr ⟨b, hb', rfl⟩)
    · rcases List.mem_cons.mp hb with rfl | hb'
      · have h1 : leR b a := hs.1 a ha'
        exact absurd (string_ext (leB_antisymm hle h1)) hne
      · exact Or.inr (ih hs.2 ha' hb')

/-- Faithful port of CPython's `posixpath.dirname`: keep everything up to and
including the last slash. -/
def takeToLastSlash : List Char → List Char
  | [] => []
  | c :: cs =>
    if cs.contains '/' then c :: takeToLastSlash cs
    else if c = '/' then [c] else []

/-- `head.rstrip('/')` of `posixpath.dirname`. -/
def dropTrailingSlashes (l : List Char) : List Char :=
  (l.reverse.dropWhile (fun c => c == '/')).reverse

/-- `os.path.dirname(p)` for POSIX paths. -/
def dirname (p : String) : String :=
  let head := takeToLastSlash p.data
  if head ≠ [] ∧ ¬ head.all (fun c => c == '/') then ⟨dropTrailingSlashes head⟩
  else ⟨head⟩

/-- `get_min_folders(folders, included)` from `relocate.py`: over all sorted
pairs of distinct folders, a lexicographically later folder containing an
earlier one as a substring is marked redundant; folders containing an
include-override path as a substring are also marked redundant; the result is
the folder set minus the redundant ones. -/
def get_min_folders (folders included : List String) : List String :=
  let excl1 := ((combinations2 (sortS folders)).filter
      (fun p => p.1 != p.2 && subL p.1.data p.2.data)).map Prod.snd
  let excl2 := folders.filter (fun f1 => included.any (fun f2 => subL f2.data f1.data))
  folders.filter (fun f => !((excl1 ++ excl2).contains f))

/-- Membership characterisation of `get_min_folders`: a folder survives unless
a strictly earlier folder is a substring of it, or an include override is a
substring of it. -/
theorem mem_get_min_folders {D I : List String} {f : String} :
    f ∈ get_min_folders D I ↔
      f ∈ D ∧ (¬ ∃ g ∈ D, ltS g f ∧ subS g f) ∧ (¬ ∃ i ∈ I, subS i f) := by
  unfold get_min_folders
  rw [List.mem_filter, Bool.not_eq_true', Bool.eq_false_iff, Ne, List.elem_iff, List.mem_append]
  constructor
  · rintro ⟨hf, hnot⟩
    refine ⟨hf, ?_, ?_⟩
    · rintro ⟨g, hg, hlt, hsub⟩
      refine absurd (Or.inl (List.mem_map.mpr ⟨(g, f), List.mem_filter.mpr ⟨?_, ?_⟩, rfl⟩)) hnot
      · exact mem_combinations2_of_lt (sorted_sortS D) (mem_sortS.mpr hg) (mem_sortS.mpr hf)
          hlt.2 hlt.1
      · simp only [Bool.and_eq_true, bne_iff_ne]
        exact ⟨hlt.2, hsub⟩
    · rintro ⟨i, hi, hsub⟩
      exact absurd (Or.inr (List.mem_filter.mpr
        ⟨hf, List.any_eq_true.mpr ⟨i, hi, by exact hsub⟩⟩)) hnot
  · rintro ⟨hf, h1, h2⟩
    refine ⟨hf, ?_⟩
    rintro (hm1 | hm2)
    · obtain ⟨⟨g, f'⟩, hp, heq⟩ := List.mem_map.mp hm1
      obtain ⟨hmem, hcond⟩ := List.mem_filter.mp hp
      simp only [Bool.and_eq_true, bne_iff_ne] at hcond
      simp only at heq
      subst heq
      obtain ⟨hg, hf', hle⟩ := of_mem_combinations2 (sorted_sortS D) hmem
      exact h1 ⟨g, mem_sortS.mp hg, ⟨hle, hcond.1⟩, hcond.2⟩
    · obtain ⟨_, hany⟩ := List.mem_filter.mp hm2
      obtain ⟨i, hi, hsub⟩ := List.any_eq_true.mp hany
      exact h2 ⟨i, hi, hsub⟩

/-- `get_min_files(files, min_folders)` from `relocate.py`: keep a file unless
one of the minimal folders is a substring of the file's parent directory. -/
def get_min_files (files min_folders : List String) : List String :=
  files.filter (fun f1 => !(min_folders.any (fun f2 => subL f2.data (dirname f1).data)))

/-- Read-only filesystem / process state consumed by the planner: the
`os.path.isfile` / `os.path.isdir` probes and `os.path.abspath` (which depends
on the current working directory). -/
structure FS where
  isfile : String → Bool
  isdir : String → Bool
  abspath : String → String

/-- The mutable `args` dictionary threaded through `relocate.py`: the
configuration keys consumed by the planner and the command-list keys it
appends to.  The Python key `include` is a Lean keyword, hence `include_`;
the `mkdir` set is modelled as a list considered up to membership. -/
structure Args where
  localscratch : Option String
  scratch : Option String
  userscratch : Option String
  job_id : String
  torque : Bool
  move : Bool
  clear_scratch : Bool
  include_ : List String
  exclude : List String
  paths : List String
  scratching : List String
  mkdir : List String
  move_to : List String
  move_from : List String
  clear : List String

/-- `get_scratch_path(args)`: first truthy of `localscratch`, `scratch`,
`userscratch`, else Python's implicit `None`. -/
def get_scratch_path (args : Args) : Option String :=
  match args.localscratch with
  | some v => some v
  | none =>
    match args.scratch with
    | some v => some v
    | none =>
      match args.userscratch with
      | some v => some v
      | none => none

/-- `get_scratching_commands(args)` from `relocate.py`. -/
def get_scratching_commands (args : Args) : Args :=
  if args.scratch.isSome || args.userscratch.isSome || args.localscratch.isSome then
    let scratch_path := ((get_scratch_path args).getD "None") ++ "/$\x7b" ++ args.job_id ++ "\x7d"
    { args with scratching := args.scratching ++
        ["\n# Define and create a scratch directory",
         "SCRATCH_DIR=\"" ++ scratch_path ++ "\"",
         "mkdir -p ${SCRATCH_DIR}",
         "cd ${SCRATCH_DIR}",
         "echo Working directory is ${SCRATCH_DIR}"] }
  else
    { args with scratching := args.scratching ++
        ["\n# Define scratch directory as working dir",
         if args.torque then "SCRATCH_DIR=$PBS_O_WORKDIR" else "SCRATCH_DIR=$SLURM_SUBMIT_DIR"] }

/-- The classification record returned by `get_in_out`. -/
structure InOut where
  files : List String
  folders : List String
  out : List String

/-- `get_in_out(paths)`: existing files, existing folders, and non-existent
paths (presumed job outputs), in this priority order. -/
def get_in_out (fs : FS) (paths : List String) : InOut :=
  ⟨paths.filter (fun p => fs.isfile p),
   paths.filter (fun p => !fs.isfile p && fs.isdir p),
   paths.filter (fun p => !fs.isfile p && !fs.isdir p)⟩

/-- The record returned by `get_min_paths`. -/
structure MinPaths where
  folders : List String
  files : List String

/-- `get_min_paths(in_out, included)` from `relocate.py`. -/
def get_min_paths (in_out : InOut) (included : List String) : MinPaths :=
  let min_folders := get_min_folders in_out.folders included
  ⟨min_folders, get_min_files in_out.files min_folders⟩

/-- `get_exclude(args)`: verbatim rsync exclude suffix. -/
def get_exclude (args : Args) : String :=
  if args.exclude.isEmpty then ""
  else "/ --exclude=\x7b'" ++ String.intercalate "','" args.exclude ++ "'\x7d"

/-- `move_to(args, path, is_folder, exclude)` from `relocate.py`: registers the
destination-parent `mkdir` and returns the sync-in command. -/
def move_to (args : Args) (path : String) (is_folder : Bool) (exclude : String) :
    Args × List String :=
  let source := if is_folder then path ++ "/" else path
  let destination := "${SCRATCH_DIR}" ++ path
  ({ args with mkdir := args.mkdir ++ ["mkdir -p " ++ dirname destination] },
   ["rsync -aqru " ++ source ++ " " ++ destination ++ exclude])

/-- `get_in_commands(args, min_paths, exclude)` from `relocate.py`. -/
def get_in_commands (args : Args) (min_paths : MinPaths) (exclude : String) : Args :=
  let a1 := min_paths.folders.foldl (fun a mf =>
    let p := move_to a mf true exclude
    { p.1 with move_to := p.1.move_to ++ p.2 }) args
  min_paths.files.foldl (fun a mf =>
    let p := move_to a mf false ""
    { p.1 with move_to := p.1.move_to ++ p.2 }) a1

/-- The sync-back line `get_out_commands` emits for a minimal folder:
`'rsync -auqr %s/ %s; fi' % (source, folder)`. -/
def out_folder_cmd (folder : String) : String :=
  let source := "${SCRATCH_DIR}" ++ folder
  "rsync -auqr " ++ source ++ "/ " ++ folder ++ "; fi"

/-- The directory-guarded line `get_out_commands` emits for a pending output. -/
def out_dir_cmd (path : String) : String :=
  let source := "${SCRATCH_DIR}" ++ path
  "if [ -d " ++ source ++ " ]; then mkdir -p " ++ path ++ "; rsync -auqr " ++
    source ++ "/ " ++ path ++ "; fi"

/-- The file-guarded line `get_out_commands` emits for a pending output. -/
def out_file_cmd (path : String) : String :=
  let source := "${SCRATCH_DIR}" ++ path
  "if [ -f " ++ source ++ " ]; then rsync -auqr " ++ source ++ " " ++ path ++ "; fi"

/-- One iteration of the minimal-folder loop of `get_out_commands`. -/
def out_folder_step (a : Args) (folder : String) : Args :=
  { a with mkdir := a.mkdir ++ ["mkdir -p " ++ folder],
           move_from := a.move_from ++ [out_folder_cmd folder] }

/-- One iteration of the pending-output loop of `get_out_commands`. -/
def out_path_step (a : Args) (path : String) : Args :=
  { a with move_from := a.move_from ++ [out_dir_cmd path, out_file_cmd path] }

/-- `get_out_commands(args, min_paths, in_out)` from `relocate.py`. -/
def get_out_commands (args : Args) (min_paths : MinPaths) (in_out : InOut) : Args :=
  in_out.out.foldl out_path_step (min_paths.folders.foldl out_folder_step args)

/-- The sync-in line `get_include_commands` emits for an include override. -/
def include_to_cmd (folder : String) : String :=
  let scratch := "${SCRATCH_DIR}" ++ folder
  "rsync -aqru " ++ folder ++ "/ " ++ scratch

/-- The sync-back line `get_include_commands` emits for an include override. -/
def include_from_cmd (folder : String) : String :=
  let scratch := "${SCRATCH_DIR}" ++ folder
  "rsync -aqru " ++ scratch ++ "/ " ++ folder

/-- Accumulator of the `for folder_ in args['include']` loop. -/
structure IncludeAcc where
  included : List String
  m_to : List String
  m_from : List String
  mkdirs : List String

/-- The loop body of `get_include_commands`: skip paths that are not existing
directories, otherwise take the absolute path and record the commands. -/
def includeLoop (fs : FS) : List String → IncludeAcc
  | [] => ⟨[], [], [], []⟩
  | folder_ :: rest =>
    let acc := includeLoop fs rest
    if fs.isdir folder_ then
      let folder := fs.abspath folder_
      let scratch := "${SCRATCH_DIR}" ++ folder
      ⟨folder :: acc.included,
       include_to_cmd folder :: acc.m_to,
       include_from_cmd folder :: acc.m_from,
       ("mkdir -p " ++ dirname scratch) :: ("mkdir -p " ++ folder) :: acc.mkdirs⟩
    else acc

/-- `get_include_commands(args)` from `relocate.py`: returns the updated args
and the set of absolute include paths. -/
def get_include_commands (fs : FS) (args : Args) : Args × List String :=
  if args.include_.isEmpty then (args, [])
  else
    let acc := includeLoop fs args.include_
    let args1 := { args with mkdir := args.mkdir ++ acc.mkdirs }
    let args2 :=
      if acc.m_to.isEmpty then args1
      else { args1 with move_to :=
        args1.move_to ++ ("\n# Include command (move to scratch)" :: acc.m_to) }
    let args3 :=
      if acc.m_from.isEmpty then args2
      else { args2 with move_from :=
        args2.move_from ++ ("\n# Include command (move from scratch)" :: acc.m_from) }
    (args3, acc.included)

/-- `get_relocating_commands(args)` from `relocate.py`. -/
def get_relocating_commands (fs : FS) (args : Args) : Args :=
  let p := get_include_commands fs args
  let exclude := get_exclude p.1
  let in_out := get_in_out fs p.1.paths
  let min_paths := get_min_paths in_out p.2
  let a1 := get_in_commands p.1 min_paths exclude
  get_out_commands a1 min_paths in_out

/-- `get_clearing_commands(args)` from `relocate.py`. -/
def get_clearing_commands (args : Args) : Args :=
  if args.clear_scratch then
    { args with clear := args.clear ++
        ["\n# Move away and clear the scratch area",
         if args.torque then "cd ${PBS_O_WORKDIR}" else "cd ${SLURM_SUBMIT_DIR}",
         "rm -rf ${SCRATCH_DIR}"] }
  else args

/-- `go_to_work(args)` from `relocate.py`: replace `move_to` by the trivial
`cd` + echo sequence for the scheduler's submission directory. -/
def go_to_work (args : Args) : Args :=
  let work_dir := if args.torque then "PBS_O_WORKDIR" else "SLURM_SUBMIT_DIR"
  { args with move_to :=
      ["# Move to the working directory and say it",
       "cd $" ++ work_dir,
       "echo Working directory is $" ++ work_dir] }

/-- `get_relocation(args)` from `relocate.py`: reset the five output keys,
then either run the scratch pipeline (`move` set) or just go to work. -/
def get_relocation (fs : FS) (args : Args) : Args :=
  let args0 : Args :=
    { args with scratching := [], mkdir := [], move_to := [], move_from := [], clear := [] }
  if args0.move then
    get_clearing_commands (get_relocating_commands fs (get_scratching_commands args0))
  else
    go_to_work args0

/-- A folder set on which the reducer finds nothing to exclude is returned
unchanged. -/
theorem get_min_folders_eq_self {O I : List String}
    (h : ∀ f ∈ O, (¬ ∃ g ∈ O, ltS g f ∧ subS g f) ∧ (¬ ∃ i ∈ I, subS i f)) :
    get_min_folders O I = O := by
  unfold get_min_folders
  apply List.filter_eq_self.mpr
  intro f hf
  rw [Bool.not_eq_true', Bool.eq_false_iff, Ne, List.elem_iff]
  intro hmem
  rcases List.mem_append.mp hmem with hm1 | hm2
  · obtain ⟨⟨g, f'⟩, hp, heq⟩ := List.mem_map.mp hm1
    obtain ⟨hpm, hcond⟩ := List.mem_filter.mp hp
    simp only [Bool.and_eq_true, bne_iff_ne] at hcond
    simp only at heq
    subst heq
    obtain ⟨hg, hf', hle⟩ := of_mem_combinations2 (sorted_sortS O) hpm
    exact (h _ hf).1 ⟨g, mem_sortS.mp hg, ⟨hle, hcond.1⟩, hcond.2⟩
  · obtain ⟨_, hany⟩ := List.mem_filter.mp hm2
    obtain ⟨i, hi, hs⟩ := List.any_eq_true.mp hany
    exact (h _ hf).2 ⟨i, hi, hs⟩

/-- Strong-induction kernel of the coverage property: a folder not matched by
any include override is covered by some surviving folder. -/
theorem cover_aux (D I : List String) :
    ∀ (n : ℕ) (d : String), (D.filter (fun g => decide (ltS g d))).length ≤ n →
      d ∈ D → (∀ i ∈ I, ¬ subS i d) → ∃ m ∈ get_min_folders D I, subS m d := by
  intro n
  induction n with
  | zero =>
    intro d hlen hd hni
    by_cases hmem : d ∈ get_min_folders D I
    · exact ⟨d, hmem, subS_refl d⟩
    · exfalso
      have hex : ∃ g ∈ D, ltS g d ∧ subS g d := by
        by_contra hno
        exact hmem (mem_get_min_folders.mpr
          ⟨hd, hno, fun ⟨i, hi, hs⟩ => hni i hi hs⟩)
      obtain ⟨g, hg, hlt, _⟩ := hex
      have hmemf : g ∈ D.filter (fun g => decide (ltS g d)) :=
        List.mem_filter.mpr ⟨hg, by simp [hlt]⟩
      have := List.length_pos_of_mem hmemf
      omega
  | succ n ih =>
    intro d hlen hd hni
    by_cases hmem : d ∈ get_min_folders D I
    · exact ⟨d, hmem, subS_refl d⟩
    · have hex : ∃ g ∈ D, ltS g d ∧ subS g d := by
        by_contra hno
        exact hmem (mem_get_min_folders.mpr
          ⟨hd, hno, fun ⟨i, hi, hs⟩ => hni i hi hs⟩)
      obtain ⟨g, hg, hlt, hsub⟩ := hex
      have hnig : ∀ i ∈ I, ¬ subS i g := fun i hi hs => hni i hi (subS_trans hs hsub)
      have hmono : List.Sublist (D.filter (fun x => decide (ltS x g)))
          (D.filter (fun x => decide (ltS x d))) := by
        apply List.monotone_filter_right
        intro x hx
        simp only [decide_eq_true_eq] at hx ⊢
        exact ltS_trans hx hlt
      have hlt_len : (D.filter (fun x => decide (ltS x g))).length <
          (D.filter (fun x => decide (ltS x d))).length := by
        rcases eq_or_lt_of_le hmono.length_le with heq | hltl
        · exfalso
          have hEq := (List.Sublist.length_eq hmono).mp heq
          have hgd : g ∈ D.filter (fun x => decide (ltS x d)) :=
            List.mem_filter.mpr ⟨hg, by simp [hlt]⟩
          rw [← hEq] at hgd
          have hgg := (List.mem_filter.mp hgd).2
          simp only [decide_eq_true_eq] at hgg
          exact hgg.2 rfl
        · exact hltl
      obtain ⟨m, hm, hms⟩ := ih g (by omega) hg hnig
      exact ⟨m, hm, subS_trans hms hsub⟩

/-- C1: the claim that the surviving folder set is pairwise non-containing
under general substring containment is false: with `D = {"/b", "/a/b"}` and no
include overrides, both folders survive although `"/b"` is a substring of
`"/a/b"` (the sorted pairwise scan only tests the lexicographically earlier
folder against the later one, and `"/a/b" < "/b"`). -/
theorem C1_counterexample :
    "/b" ∈ get_min_folders ["/b", "/a/b"] [] ∧
    "/a/b" ∈ get_min_folders ["/b", "/a/b"] [] ∧
    "/b" ≠ "/a/b" ∧ subS "/b" "/a/b" := by decide

/-- C1 (amended): the surviving folder set is pairwise non-containing under
*leading-block* (prefix) containment: no surviving folder is a proper prefix
of another surviving folder. -/
theorem C1_min_folders_no_proper_pre (D I : List String) (a b : String)
    (ha : a ∈ get_min_folders D I) (hb : b ∈ get_min_folders D I) (hne : a ≠ b) :
    ¬ isPre a.data b.data = true := by
  intro hpre
  have hlt : ltS a b := ltS_of_isPre hne hpre
  have hsubs : subS a b := isPre_subL hpre
  exact (mem_get_min_folders.mp hb).2.1 ⟨a, (mem_get_min_folders.mp ha).1, hlt, hsubs⟩

/-- Witness for C1 (amended) at `D = {"/b", "/a/b"}`, `I = ∅`. -/
theorem C1_witness :
    "/b" ∈ get_min_folders ["/b", "/a/b"] [] ∧
    "/a/b" ∈ get_min_folders ["/b", "/a/b"] [] ∧
    ¬ isPre "/b".data "/a/b".data = true :=
  ⟨by decide, by decide,
   C1_min_folders_no_proper_pre ["/b", "/a/b"] [] "/b" "/a/b"
     (by decide) (by decide) (by decide)⟩

/-- C2: the claim that *every* directory of `D` is in the output or contains
an output directory as a substring fails once include overrides act: with
`D = {"/a"}` and `I = {"/a"}` the output is empty, so `"/a"` is neither a
member nor covered. -/
theorem C2_counterexample :
    ¬ ("/a" ∈ get_min_folders ["/a"] ["/a"] ∨
       ∃ m ∈ get_min_folders ["/a"] ["/a"], subS m "/a") := by decide

/-- C2 (amended): every directory of `D` that does not contain an include
override as a substring is either in the output of `get_min_folders` or
contains some output directory as a substring. -/
theorem C2_cover (D I : List String) (d : String) (hd : d ∈ D)
    (hni : ∀ i ∈ I, ¬ subS i d) :
    d ∈ get_min_folders D I ∨ ∃ m ∈ get_min_folders D I, subS m d := by
  obtain ⟨m, hm, hs⟩ :=
    cover_aux D I (D.filter (fun g => decide (ltS g d))).length d le_rfl hd hni
  exact Or.inr ⟨m, hm, hs⟩

/-- Witness for C2 (amended) at `D = {"/a", "/a/b"}`, `I = ∅`, `d = "/a/b"`. -/
theorem C2_witness :
    "/a/b" ∈ get_min_folders ["/a", "/a/b"] [] ∨
    ∃ m ∈ get_min_folders ["/a", "/a/b"] [], subS m "/a/b" :=
  C2_cover ["/a", "/a/b"] [] "/a/b" (by decide) (by simp)

/-- C3: the reducer is idempotent: applied to its own output with the same
include set, `get_min_folders` returns that output unchanged. -/
theorem C3_idempotent (D I : List String) :
    get_min_folders (get_min_folders D I) I = get_min_folders D I := by
  apply get_min_folders_eq_self
  intro f hf
  obtain ⟨hfD, h1, h2⟩ := mem_get_min_folders.mp hf
  refine ⟨?_, h2⟩
  rintro ⟨g, hg, hlt, hsub⟩
  exact h1 ⟨g, (mem_get_min_folders.mp hg).1, hlt, hsub⟩

/-- C4: `get_min_files` drops a file exactly when some minimal folder is a
substring of the file's parent-directory string (`dirname`), and it keeps the
file otherwise; on the spec's concrete scenario the result is exactly
`{/a/b/c.txt, /1.txt}`. -/
theorem C4_min_files :
    (∀ (F Dmin : List String) (f : String),
        f ∈ get_min_files F Dmin ↔ f ∈ F ∧ ¬ ∃ d ∈ Dmin, subS d (dirname f)) ∧
    get_min_files ["/a/b/c/d/e.txt", "/a/b/c/d.txt", "/a/b/c.txt", "/1/2.txt", "/1.txt"]
        ["/a/b/c", "/1"] = ["/a/b/c.txt", "/1.txt"] := by
  constructor
  · intro F Dmin f
    simp only [get_min_files, List.mem_filter, Bool.not_eq_true', Bool.eq_false_iff, Ne,
      List.any_eq_true, subS]
  · decide

/-- C5: adding a directory to the include overrides never enlarges the
minimal folder set, and an included directory that is itself in `D` is always
absent from the result. -/
theorem C5_include_monotone (D I : List String) (d : String) :
    get_min_folders D (d :: I) ⊆ get_min_folders D I ∧
    (d ∈ D → d ∉ get_min_folders D (d :: I)) := by
  constructor
  · intro f hf
    obtain ⟨hfD, h1, h2⟩ := mem_get_min_folders.mp hf
    refine mem_get_min_folders.mpr ⟨hfD, h1, ?_⟩
    rintro ⟨i, hi, hs⟩
    exact h2 ⟨i, List.mem_cons_of_mem _ hi, hs⟩
  · intro hd hmem
    exact (mem_get_min_folders.mp hmem).2.2 ⟨d, List.mem_cons_self _ _, subS_refl d⟩

/-- Witness for C5 at `D = {"/a"}`, `I = ∅`, `d = "/a"`. -/
theorem C5_witness :
    get_min_folders ["/a"] ["/a"] ⊆ get_min_folders ["/a"] [] ∧
    "/a" ∉ get_min_folders ["/a"] ["/a"] :=
  ⟨(C5_include_monotone ["/a"] [] "/a").1,
   (C5_include_monotone ["/a"] [] "/a").2 (by decide)⟩

theorem data_append (a b : String) : (a ++ b).data = a.data ++ b.data := rfl

theorem isPre_append (a t : String) : isPre a.data (a ++ t).data = true :=
  (isPre_iff _ _).mpr ⟨t.data, rfl⟩

theorem mem_foldl_out_folder {c : String} :
    ∀ (l : List String) (a : Args),
      c ∈ (l.foldl out_folder_step a).move_from ↔
        c ∈ a.move_from ∨ ∃ f ∈ l, c = out_folder_cmd f := by
  intro l
  induction l with
  | nil => intro a; simp
  | cons x xs ih =>
    intro a
    rw [List.foldl_cons, ih]
    simp only [out_folder_step, List.mem_append, List.mem_cons, List.not_mem_nil, or_false]
    constructor
    · rintro ((h | h) | ⟨f, hf, hc⟩)
      · exact Or.inl h
      · exact Or.inr ⟨x, Or.inl rfl, h⟩
      · exact Or.inr ⟨f, Or.inr hf, hc⟩
    · rintro (h | ⟨f, hf | hf, hc⟩)
      · exact Or.inl (Or.inl h)
      · subst hf; exact Or.inl (Or.inr hc)
      · exact Or.inr ⟨f, hf, hc⟩

theorem mem_foldl_out_path {c : String} :
    ∀ (l : List String) (a : Args),
      c ∈ (l.foldl out_path_step a).move_from ↔
        c ∈ a.move_from ∨ ∃ p ∈ l, c = out_dir_cmd p ∨ c = out_file_cmd p := by
  intro l
  induction l with
  | nil => intro a; simp
  | cons x xs ih =>
    intro a
    rw [List.foldl_cons, ih]
    simp only [out_path_step, List.mem_append, List.mem_cons, List.mem_singleton,
      List.not_mem_nil, or_false]
    constructor
    · rintro ((h | h | h) | ⟨p, hp, hc⟩)
      · exact Or.inl h
      · exact Or.inr ⟨x, Or.inl rfl, Or.inl h⟩
      · exact Or.inr ⟨x, Or.inl rfl, Or.inr h⟩
      · exact Or.inr ⟨p, Or.inr hp, hc⟩
    · rintro (h | ⟨p, hp | hp, hc⟩)
      · exact Or.inl (Or.inl h)
      · subst hp
        rcases hc with hc | hc
        · exact Or.inl (Or.inr (Or.inl hc))
        · exact Or.inl (Or.inr (Or.inr hc))
      · exact Or.inr ⟨p, hp, hc⟩

theorem mem_includeLoop_to {fs : FS} {c : String} :
    ∀ l : List String,
      c ∈ (includeLoop fs l).m_to ↔
        ∃ f ∈ l, fs.isdir f = true ∧ c = include_to_cmd (fs.abspath f) := by
  intro l
  induction l with
  | nil => simp [includeLoop]
  | cons x xs ih =>
    by_cases hx : fs.isdir x = true
    · simp only [includeLoop, hx, if_true]
      rw [List.mem_cons, ih]
      constructor
      · rintro (h | ⟨f, hf, hd, hc⟩)
        · exact ⟨x, List.mem_cons_self _ _, hx, h⟩
        · exact ⟨f, List.mem_cons_of_mem _ hf, hd, hc⟩
      · rintro ⟨f, hf, hd, hc⟩
        rcases List.mem_cons.mp hf with rfl | hf'
        · exact Or.inl hc
        · exact Or.inr ⟨f, hf', hd, hc⟩
    · simp only [includeLoop, hx, if_false, Bool.false_eq_true, ih]
      constructor
      · rintro ⟨f, hf, hd, hc⟩
        exact ⟨f, List.mem_cons_of_mem _ hf, hd, hc⟩
      · rintro ⟨f, hf, hd, hc⟩
        rcases List.mem_cons.mp hf with rfl | hf'
        · exact absurd hd hx
        · exact ⟨f, hf', hd, hc⟩

theorem mem_includeLoop_from {fs : FS} {c : String} :
    ∀ l : List String,
      c ∈ (includeLoop fs l).m_from ↔
        ∃ f ∈ l, fs.isdir f = true ∧ c = include_from_cmd (fs.abspath f) := by
  intro l
  induction l with
  | nil => simp [includeLoop]
  | cons x xs ih =>
    by_cases hx : fs.isdir x = true
    · simp only [includeLoop, hx, if_true]
      rw [List.mem_cons, ih]
      constructor
      · rintro (h | ⟨f, hf, hd, hc⟩)
        · exact ⟨x, List.mem_cons_self _ _, hx, h⟩
        · exact ⟨f, List.mem_cons_of_mem _ hf, hd, hc⟩
      · rintro ⟨f, hf, hd, hc⟩
        rcases List.mem_cons.mp hf with rfl | hf'
        · exact Or.inl hc
        · exact Or.inr ⟨f, hf', hd, hc⟩
    · simp only [includeLoop, hx, if_false, Bool.false_eq_true, ih]
      constructor
      · rintro ⟨f, hf, hd, hc⟩
        exact ⟨f, List.mem_cons_of_mem _ hf, hd, hc⟩
      · rintro ⟨f, hf, hd, hc⟩
        rcases List.mem_cons.mp hf with rfl | hf'
        · exact absurd hd hx
        · exact ⟨f, hf', hd, hc⟩

theorem out_dir_cmd_shape (p : String) :
    out_dir_cmd p = "if [ " ++ ("-d " ++ ("${SCRATCH_DIR}" ++ p) ++ " ]; then mkdir -p " ++
      p ++ "; rsync -auqr " ++ ("${SCRATCH_DIR}" ++ p) ++ "/ " ++ p ++ "; fi") := by
  apply string_ext
  have e1 : "if [ -d ".data = "if [ ".data ++ "-d ".data := by decide
  simp [out_dir_cmd, data_append, e1, List.append_assoc]

theorem out_file_cmd_shape (p : String) :
    out_file_cmd p = "if [ " ++ ("-f " ++ ("${SCRATCH_DIR}" ++ p) ++ " ]; then rsync -auqr " ++
      ("${SCRATCH_DIR}" ++ p) ++ " " ++ p ++ "; fi") := by
  apply string_ext
  have e1 : "if [ -f ".data = "if [ ".data ++ "-f ".data := by decide
  simp [out_file_cmd, data_append, e1, List.append_assoc]

theorem out_dir_cmd_guarded (p : String) : isPre "if [ ".data (out_dir_cmd p).data = true := by
  rw [out_dir_cmd_shape]
  exact isPre_append _ _

theorem out_file_cmd_guarded (p : String) : isPre "if [ ".data (out_file_cmd p).data = true := by
  rw [out_file_cmd_shape]
  exact isPre_append _ _

theorem out_folder_cmd_not_if (f : String) : ∀ t : String, out_folder_cmd f ≠ "if" ++ t := by
  intro t h
  have hd := congrArg String.data h
  have e1 : "rsync -auqr ".data = 'r' :: "sync -auqr ".data := by decide
  have e2 : "if".data = 'i' :: "f".data := by decide
  simp only [out_folder_cmd, data_append, e1, e2, List.cons_append, List.append_assoc] at hd
  injection hd with h1 _
  exact absurd h1 (by decide)

/-- Baseline planning-time filesystem in which no path exists. -/
def fsNone : FS := ⟨fun _ => false, fun _ => false, fun s => s⟩

/-- Planning-time filesystem in which every path is an existing directory. -/
def fsAllDir : FS := ⟨fun _ => false, fun _ => true, fun s => s⟩

/-- Baseline concrete argument record used by the witnesses. -/
def argsBase : Args :=
  { localscratch := none, scratch := none, userscratch := none, job_id := "X",
    torque := false, move := true, clear_scratch := false, include_ := [],
    exclude := [], paths := [], scratching := [], mkdir := [], move_to := [],
    move_from := [], clear := [] }

/-- `argsBase` with one include-override path requested. -/
def argsInc : Args := { argsBase with include_ := ["/a"] }

/-- `argsBase` with no scratch move requested. -/
def argsNoMove : Args := { argsBase with move := false }

/-- `argsBase` with one pending-output path. -/
def argsOut : Args := { argsBase with paths := ["/o"] }

/-- `argsBase` with all three scratch options set. -/
def argsAllScratch : Args :=
  { argsBase with localscratch := some "/l", scratch := some "/s", userscratch := some "/u" }

/-- `argsBase` with cluster and user scratch set. -/
def argsSU : Args := { argsBase with scratch := some "/s", userscratch := some "/u" }

/-- `argsBase` with only user scratch set. -/
def argsU : Args := { argsBase with userscratch := some "/u" }

/-- C6: the claim that *every* user-supplied include path gets unconditional
sync commands is false: a supplied path that is not an existing directory at
planning time is skipped entirely (`if not isdir(folder_): continue`).  With
`include = ("/a",)` on a filesystem where `/a` does not exist, no command at
all is appended. -/
theorem C6_counterexample :
    argsInc.include_ = ["/a"] ∧
    (get_include_commands fsNone argsInc).1.move_to = [] ∧
    (get_include_commands fsNone argsInc).1.move_from = [] := by decide

/-- C6 (amended): for every include-override path that is an existing
directory at planning time, `get_include_commands` appends one rsync command
for its absolute path into `move_to` and one into `move_from`, regardless of
any ancestor relationship with other requested directories (the function
never consults them). -/
theorem C6_include_sync (fs : FS) (args : Args) (f : String)
    (hf : f ∈ args.include_) (hdir : fs.isdir f = true) :
    include_to_cmd (fs.abspath f) ∈ (get_include_commands fs args).1.move_to ∧
    include_from_cmd (fs.abspath f) ∈ (get_include_commands fs args).1.move_from := by
  have hne : args.include_ ≠ [] := List.ne_nil_of_mem hf
  have hto : include_to_cmd (fs.abspath f) ∈ (includeLoop fs args.include_).m_to :=
    (mem_includeLoop_to _).mpr ⟨f, hf, hdir, rfl⟩
  have hfrom : include_from_cmd (fs.abspath f) ∈ (includeLoop fs args.include_).m_from :=
    (mem_includeLoop_from _).mpr ⟨f, hf, hdir, rfl⟩
  have hEmp : args.include_.isEmpty = false := by
    cases hI : args.include_ with
    | nil => exact absurd hI hne
    | cons y ys => simp
  have htoE : (includeLoop fs args.include_).m_to.isEmpty = false := by
    cases hM : (includeLoop fs args.include_).m_to with
    | nil => rw [hM] at hto; simp at hto
    | cons y ys => simp
  have hfromE : (includeLoop fs args.include_).m_from.isEmpty = false := by
    cases hM : (includeLoop fs args.include_).m_from with
    | nil => rw [hM] at hfrom; simp at hfrom
    | cons y ys => simp
  simp only [get_include_commands, hEmp, htoE, hfromE, Bool.false_eq_true, if_false]
  constructor
  · exact List.mem_append.mpr (Or.inr (List.mem_cons_of_mem _ hto))
  · exact List.mem_append.mpr (Or.inr (List.mem_cons_of_mem _ hfrom))

/-- Witness for C6 (amended): `/a` exists as a directory and gets both
commands. -/
theorem C6_witness :
    include_to_cmd "/a" ∈ (get_include_commands fsAllDir argsInc).1.move_to ∧
    include_from_cmd "/a" ∈ (get_include_commands fsAllDir argsInc).1.move_from :=
  ⟨(C6_include_sync fsAllDir argsInc "/a" (by decide) rfl).1,
   (C6_include_sync fsAllDir argsInc "/a" (by decide) rfl).2⟩

/-- C7: when no scratch move is requested, `get_relocation` leaves
`move_from` and `clear` empty and sets `move_to` to exactly the comment line,
a `cd` to the scheduler's submission-directory variable (`$PBS_O_WORKDIR`
under Torque, `$SLURM_SUBMIT_DIR` otherwise), and an echo of that variable. -/
theorem C7_no_move (fs : FS) (args : Args) (h : args.move = false) :
    (get_relocation fs args).move_to =
      (if args.torque then
        ["# Move to the working directory and say it", "cd $PBS_O_WORKDIR",
         "echo Working directory is $PBS_O_WORKDIR"]
       else
        ["# Move to the working directory and say it", "cd $SLURM_SUBMIT_DIR",
         "echo Working directory is $SLURM_SUBMIT_DIR"]) ∧
    (get_relocation fs args).move_from = [] ∧
    (get_relocation fs args).clear = [] := by
  cases htq : args.torque <;>
    simp [get_relocation, go_to_work, h, htq]

/-- Witness for C7 at a concrete Slurm configuration with `move` unset. -/
theorem C7_witness :
    (get_relocation fsNone argsNoMove).move_to =
      ["# Move to the working directory and say it", "cd $SLURM_SUBMIT_DIR",
       "echo Working directory is $SLURM_SUBMIT_DIR"] ∧
    (get_relocation fsNone argsNoMove).move_from = [] ∧
    (get_relocation fsNone argsNoMove).clear = [] := by
  have h := C7_no_move fsNone argsNoMove rfl
  simpa [argsNoMove, argsBase] using h

/-- C8: for a path classified as a pending output (neither file nor folder at
planning time), `get_out_commands` appends to `move_from` the two
runtime-guarded conditionals — the `-d`-guarded create-and-sync line and the
`-f`-guarded file-sync line — and every line of the resulting `move_from` is
either pre-existing, a minimal-folder sync-back line, or starts with
`if [ ` (so no unconditional transfer is emitted for pending outputs). -/
theorem C8_pending_output_guards (fs : FS) (args : Args) (mp : MinPaths) (p : String)
    (hp : p ∈ (get_in_out fs args.paths).out) :
    out_dir_cmd p = "if [ -d ${SCRATCH_DIR}" ++ p ++ " ]; then mkdir -p " ++ p ++
      "; rsync -auqr ${SCRATCH_DIR}" ++ p ++ "/ " ++ p ++ "; fi" ∧
    out_file_cmd p = "if [ -f ${SCRATCH_DIR}" ++ p ++ " ]; then rsync -auqr ${SCRATCH_DIR}" ++
      p ++ " " ++ p ++ "; fi" ∧
    out_dir_cmd p ∈ (get_out_commands args mp (get_in_out fs args.paths)).move_from ∧
    out_file_cmd p ∈ (get_out_commands args mp (get_in_out fs args.paths)).move_from ∧
    (∀ c ∈ (get_out_commands args mp (get_in_out fs args.paths)).move_from,
      c ∈ args.move_from ∨ (∃ f ∈ mp.folders, c = out_folder_cmd f) ∨
        isPre "if [ ".data c.data = true) := by
  refine ⟨?_, ?_, ?_, ?_, ?_⟩
  · apply string_ext
    have e1 : "if [ -d ${SCRATCH_DIR}".data = "if [ -d ".data ++ "${SCRATCH_DIR}".data := by
      decide
    have e2 : "; rsync -auqr ${SCRATCH_DIR}".data =
        "; rsync -auqr ".data ++ "${SCRATCH_DIR}".data := by decide
    simp [out_dir_cmd, data_append, e1, e2, List.append_assoc]
  · apply string_ext
    have e1 : "if [ -f ${SCRATCH_DIR}".data = "if [ -f ".data ++ "${SCRATCH_DIR}".data := by
      decide
    have e2 : "; rsync -auqr ${SCRATCH_DIR}".data =
        "; rsync -auqr ".data ++ "${SCRATCH_DIR}".data := by decide
    simp [out_file_cmd, data_append, e1, e2, List.append_assoc]
  · simp only [get_out_commands]
    exact (mem_foldl_out_path _ _).mpr (Or.inr ⟨p, hp, Or.inl rfl⟩)
  · simp only [get_out_commands]
    exact (mem_foldl_out_path _ _).mpr (Or.inr ⟨p, hp, Or.inr rfl⟩)
  · intro c hc
    simp only [get_out_commands] at hc
    rcases (mem_foldl_out_path _ _).mp hc with h1 | ⟨q, _, hcq | hcq⟩
    · rcases (mem_foldl_out_folder _ _).mp h1 with h2 | ⟨f, hf, hcf⟩
      · exact Or.inl h2
      · exact Or.inr (Or.inl ⟨f, hf, hcf⟩)
    · subst hcq; exact Or.inr (Or.inr (out_dir_cmd_guarded q))
    · subst hcq; exact Or.inr (Or.inr (out_file_cmd_guarded q))

/-- Witness for C8 at a pending output `/o` (no path exists in `fsNone`). -/
theorem C8_witness :
    out_dir_cmd "/o" ∈
      (get_out_commands argsOut ⟨["/d"], []⟩ (get_in_out fsNone argsOut.paths)).move_from ∧
    out_file_cmd "/o" ∈
      (get_out_commands argsOut ⟨["/d"], []⟩ (get_in_out fsNone argsOut.paths)).move_from :=
  ⟨(C8_pending_output_guards fsNone argsOut ⟨["/d"], []⟩ "/o" (by decide)).2.2.1,
   (C8_pending_output_guards fsNone argsOut ⟨["/d"], []⟩ "/o" (by decide)).2.2.2.1⟩

/-- C9: `get_scratch_path` follows the fixed priority local-node scratch over
cluster scratch over user scratch: `localscratch` is returned if set, else
`scratch` if set, else `userscratch`. -/
theorem C9_scratch_priority (args : Args) :
    (∀ v, args.localscratch = some v → get_scratch_path args = some v) ∧
    (args.localscratch = none → ∀ v, args.scratch = some v → get_scratch_path args = some v) ∧
    (args.localscratch = none → args.scratch = none →
      get_scratch_path args = args.userscratch) := by
  refine ⟨fun v hv => ?_, fun hl v hv => ?_, fun hl hs => ?_⟩
  · simp [get_scratch_path, hv]
  · simp [get_scratch_path, hl, hv]
  · cases hu : args.userscratch <;> simp [get_scratch_path, hl, hs, hu]

/-- Witness for C9: with all three options set the local scratch wins, with
the lower two set the cluster scratch wins, with only the user scratch set it
is returned. -/
theorem C9_witness :
    get_scratch_path argsAllScratch = some "/l" ∧
    get_scratch_path argsSU = some "/s" ∧
    get_scratch_path argsU = some "/u" :=
  ⟨(C9_scratch_priority argsAllScratch).1 "/l" rfl,
   (C9_scratch_priority argsSU).2.1 rfl "/s" rfl,
   ((C9_scratch_priority argsU).2.2 rfl rfl).trans rfl⟩

/-- C10: for every minimal folder, the sync-back line appended to
`move_from` is exactly `rsync -auqr ${SCRATCH_DIR}<d>/ <d>; fi`: it ends in
the dangling `; fi` token although no `if` opens the command — unlike the
pending-output lines, which are complete `if ...; then ...; fi`
conditionals. -/
theorem C10_folder_sync_line (args : Args) (mp : MinPaths) (io : InOut) (f : String)
    (hf : f ∈ mp.folders) :
    out_folder_cmd f = "rsync -auqr ${SCRATCH_DIR}" ++ f ++ "/ " ++ f ++ "; fi" ∧
    out_folder_cmd f ∈ (get_out_commands args mp io).move_from ∧
    (∃ t : String, out_folder_cmd f = t ++ "; fi") ∧
    (∀ t : String, out_folder_cmd f ≠ "if" ++ t) := by
  refine ⟨?_, ?_, ?_, out_folder_cmd_not_if f⟩
  · apply string_ext
    have e1 : "rsync -auqr ${SCRATCH_DIR}".data =
        "rsync -auqr ".data ++ "${SCRATCH_DIR}".data := by decide
    simp [out_folder_cmd, data_append, e1, List.append_assoc]
  · simp only [get_out_commands]
    exact (mem_foldl_out_path _ _).mpr
      (Or.inl ((mem_foldl_out_folder _ _).mpr (Or.inr ⟨f, hf, rfl⟩)))
  · refine ⟨"rsync -auqr " ++ ("${SCRATCH_DIR}" ++ f) ++ "/ " ++ f, ?_⟩
    apply string_ext
    simp [out_folder_cmd, data_append, List.append_assoc]

/-- Witness for C10 at the minimal folder `/d`. -/
theorem C10_witness :
    out_folder_cmd "/d" ∈
      (get_out_commands argsBase ⟨["/d"], []⟩ ⟨[], [], []⟩).move_from ∧
    (∀ t : String, out_folder_cmd "/d" ≠ "if" ++ t) :=
  ⟨(C10_folder_sync_line argsBase ⟨["/d"], []⟩ ⟨[], [], []⟩ "/d" (by decide)).2.1,
   (C10_folder_sync_line argsBase ⟨["/d"], []⟩ ⟨[], [], []⟩ "/d" (by decide)).2.2.2⟩

end Xhpc
